import Mathlib

/-!
Verification of the serena file-mutation and symbol-navigation core
(`src/serena/tools/file_tools.py`, `src/serena/tools/symbol_tools.py`).

Content is modelled as `List Char` (Python `str`).  The external regex
engine (Python `re`) is modelled by the abstract `PatternEngine`
interface: `decomp content` is the list of non-overlapping left-to-right
matches that `re.subn` iterates over, each paired with the text that
precedes it, together with the text after the last match; `search s`
is `re.search(pattern, s) is not None` for the same compiled pattern.
Concrete executable engines (`litEngine` for an escaped literal pattern,
`altEngine` for an alternation of non-empty literal branches) instantiate
the interface with exactly Python's leftmost / first-branch semantics.
-/

abbrev Str := List Char

/-- A regex match: `text` is `match.group(0)`, `groups` holds the values of
capture groups `1..k` (`none` = the group did not participate). -/
structure RMatch where
  text : Str
  groups : List (Option Str)
  deriving Repr, DecidableEq

/-- The compiled-pattern interface consumed by `ReplaceContentTool.replace_content`
(the Python `re` module is external to the core). -/
structure PatternEngine where
  decomp : Str → List (Str × RMatch) × Str
  search : Str → Bool

/-- Failure kinds of the mutation path (`ValueError` / `IndexError`
messages distinguished per the error taxonomy). -/
inductive ReplaceErr where
  | NoMatch
  | TooManyMatches
  | AmbiguousMatch
  | NoSuchGroup
  deriving Repr, DecidableEq

/-- Python `match.group(n)`: group 0 is the whole matched text; groups `1..k` come
from `groups`; any other index raises (`IndexError: no such group`). -/
def matchGroup (m : RMatch) (n : Nat) : Except ReplaceErr (Option Str) :=
  if n = 0 then .ok (some m.text)
  else
    match m.groups.get? (n - 1) with
    | some v => .ok v
    | none => .error .NoSuchGroup

def digitsToNat (ds : Str) : Nat :=
  ds.foldl (fun a c => a * 10 + (c.toNat - 48)) 0

/-- Is there an occurrence of a backreference token `\$!(\d+)` anywhere in
the list? (Used to state token-freeness of templates and template chunks.) -/
def hasTok : Str → Bool
  | c1 :: c2 :: c3 :: rest => (c1 = '$' && c2 = '!' && c3.isDigit) || hasTok (c2 :: c3 :: rest)
  | _ => false

/-- Scanner state for the left-to-right scan of `re.sub(r"\$!(\d+)", ...)`
over the replacement template: `normal` outside any candidate token,
`dollar` after a pending `$`, `bang` after a pending `$!`, `tok ds` inside
the digit run of a token whose digits so far are `ds`. -/
inductive ScanState where
  | normal
  | dollar
  | bang
  | tok (ds : Str)
  deriving Repr, DecidableEq

/-- The pending, not-yet-emitted characters of a scanner state. -/
def stRender : ScanState → Str
  | .normal => []
  | .dollar => ['$']
  | .bang => ['$', '!']
  | .tok ds => '$' :: '!' :: ds

/-- The value a completed token `$!ds` contributes
(`expand_backreference`, lines 118-121): `match.group(N)` when that group
participated, the literal token text when it did not, an error when the
group does not exist. -/
def tokValue (g : Nat → Except ReplaceErr (Option Str)) (ds : Str) :
    Except ReplaceErr Str :=
  match g (digitsToNat ds) with
  | .error e => .error e
  | .ok (some v) => .ok v
  | .ok none => .ok ('$' :: '!' :: ds)

/-- The scan of `re.sub(r"\$!(\d+)", expand_backreference, repl_template)`
(line 122) as a character-at-a-time automaton: a token is a `$`, a `!` and a
maximal non-empty digit run; everything else is copied verbatim (leftmost
matching, so a `$` can start a new candidate token immediately after a
failed candidate or a completed token). -/
def expandScan (g : Nat → Except ReplaceErr (Option Str)) (st : ScanState) :
    Str → Except ReplaceErr Str
  | [] =>
    match st with
    | .tok ds => tokValue g ds
    | st => .ok (stRender st)
  | c :: rest =>
    match st with
    | .normal =>
      if c = '$' then expandScan g .dollar rest
      else (expandScan g .normal rest).map (fun t => c :: t)
    | .dollar =>
      if c = '!' then expandScan g .bang rest
      else if c = '$' then (expandScan g .dollar rest).map (fun t => '$' :: t)
      else (expandScan g .normal rest).map (fun t => '$' :: c :: t)
    | .bang =>
      if c.isDigit then expandScan g (.tok [c]) rest
      else if c = '$' then (expandScan g .dollar rest).map (fun t => '$' :: '!' :: t)
      else (expandScan g .normal rest).map (fun t => '$' :: '!' :: c :: t)
    | .tok ds =>
      if c.isDigit then expandScan g (.tok (ds ++ [c])) rest
      else if c = '$' then
        match tokValue g ds with
        | .error e => .error e
        | .ok v => (expandScan g .dollar rest).map (fun t => v ++ t)
      else
        match tokValue g ds with
        | .error e => .error e
        | .ok v => (expandScan g .normal rest).map (fun t => v ++ c :: t)

/-- The scan of `expand_backreference` applied over the whole template. -/
def expandAux (g : Nat → Except ReplaceErr (Option Str)) (l : Str) :
    Except ReplaceErr Str :=
  expandScan g .normal l

def expandBackrefs (tmpl : Str) (m : RMatch) : Except ReplaceErr Str :=
  expandAux (matchGroup m) tmpl

/-- Model of `ReplaceContentTool._create_replacement_function` (lines 114-123): per
match, if the matched text contains a newline and the same compiled pattern
also matches the matched text with its first character removed, raise
`AmbiguousMatch`; otherwise expand the backreference tokens of the template. -/
def validateAndReplace (e : PatternEngine) (tmpl : Str) (m : RMatch) :
    Except ReplaceErr Str :=
  if m.text.contains '\n' && e.search (m.text.drop 1) then .error .AmbiguousMatch
  else expandBackrefs tmpl m

/-- Left-to-right effectful map (the order in which `re.subn` invokes the
replacement function; its exception aborts the whole substitution). -/
def mapExcept {α β ε : Type} (f : α → Except ε β) : List α → Except ε (List β)
  | [] => .ok []
  | x :: xs =>
    match f x with
    | .error e => .error e
    | .ok y =>
      match mapExcept f xs with
      | .error e => .error e
      | .ok ys => .ok (y :: ys)

/-- Python `re.subn(regex, repl_fn, content)`: substitute every match, counting
occurrences. -/
def subn (e : PatternEngine) (replFn : RMatch → Except ReplaceErr Str)
    (content : Str) : Except ReplaceErr (Str × Nat) :=
  let sd := e.decomp content
  match mapExcept (fun pm => (replFn pm.2).map (fun r => pm.1 ++ r)) sd.1 with
  | .error err => .error err
  | .ok parts => .ok (parts.flatten ++ sd.2, sd.1.length)

/-- The staging part of `ReplaceContentTool.replace_content` (lines 136-151),
with the compiled pattern abstracted as `e`: run the substitution, then fail
`NoMatch` on zero occurrences and `TooManyMatches` on more than one occurrence
with `allow_multiple_occurrences=False`. -/
def replaceContentStage (e : PatternEngine) (tmpl : Str) (allowMultiple : Bool)
    (content : Str) : Except ReplaceErr (Str × Nat) :=
  match subn e (validateAndReplace e tmpl) content with
  | .error err => .error err
  | .ok (updated, n) =>
    if n = 0 then .error .NoMatch
    else if !allowMultiple && n > 1 then .error .TooManyMatches
    else .ok (updated, n)

/-- Modelled from the spec: `EditedFileContext` (defined in
`serena/tools/tools_base.py`, which is not part of the sources) — the scoped
file-edit transaction of §4.2: on any error raised while staging, the
transaction aborts and the file on disk is untouched; on success the staged
content fully replaces the file. The pair is (call result, file content
after the call). -/
def runEditTransaction (original : Str)
    (stage : Str → Except ReplaceErr (Str × Nat)) :
    Except ReplaceErr (Str × Nat) × Str :=
  match stage original with
  | .ok (updated, n) => (.ok (updated, n), updated)
  | .error e => (.error e, original)

/-- The operation `replace_content` applied to a file with content `file`. -/
def replaceContentOnFile (e : PatternEngine) (tmpl : Str) (allowMultiple : Bool)
    (file : Str) : Except ReplaceErr (Str × Nat) × Str :=
  runEditTransaction file (replaceContentStage e tmpl allowMultiple)

/-- Prepend a character to the text preceding the first match of a
decomposition (it lands in the tail when there is no match). -/
def consPreD (c : Char) : List (Str × RMatch) × Str → List (Str × RMatch) × Str
  | ([], tl) => ([], c :: tl)
  | ((p, m) :: segs, tl) => ((c :: p, m) :: segs, tl)

/-- Non-overlapping left-to-right occurrences of a non-empty literal needle,
as a scan that skips the remaining `skip` characters of a match already
emitted: Python's matching behaviour for the pattern `re.escape(needle)`. -/
def litScan (needle : Str) (skip : Nat) : Str → List (Str × RMatch) × Str
  | [] => ([], [])
  | c :: rest =>
    match skip with
    | k + 1 => litScan needle k rest
    | 0 =>
      if needle.isPrefixOf (c :: rest) then
        let r := litScan needle (needle.length - 1) rest
        (([], ⟨needle, []⟩) :: r.1, r.2)
      else consPreD c (litScan needle 0 rest)

def litDecompNE (needle : Str) (content : Str) : List (Str × RMatch) × Str :=
  litScan needle 0 content

/-- Python's empty-pattern substitution decomposition: an empty match at
every position, including the end of the string. -/
def emptyDecomp : Str → List (Str × RMatch) × Str
  | [] => ([([], ⟨[], []⟩)], [])
  | c :: rest =>
    let r := consPreD c (emptyDecomp rest)
    (([], ⟨[], []⟩) :: r.1, r.2)

def litDecomp (needle : Str) (content : Str) : List (Str × RMatch) × Str :=
  if needle.isEmpty then emptyDecomp content else litDecompNE needle content

/-- Python `re.search` for an escaped literal pattern: does the needle occur in `s`? -/
def litSearch (needle : Str) : Str → Bool
  | [] => needle.isEmpty
  | c :: rest => needle.isPrefixOf (c :: rest) || litSearch needle rest

/-- The compiled pattern `re.escape(needle)` with flags
`re.DOTALL | re.MULTILINE` (an escaped pattern matches exactly the literal
needle; the flags do not change that). -/
def litEngine (needle : Str) : PatternEngine :=
  ⟨litDecomp needle, litSearch needle⟩

/-- First alternation branch matching at the head position (Python tries
the branches of `b1|b2|...` in order). Empty branches are not used. -/
def altMatchAt (bs : List Str) (s : Str) : Option Str :=
  bs.find? (fun b => !b.isEmpty && b.isPrefixOf s)

/-- Non-overlapping left-to-right matching for an alternation of non-empty
literal branches (Python semantics: leftmost position, first branch), as a
scan with a skip counter for the remainder of an emitted match. -/
def altScan (bs : List Str) (skip : Nat) : Str → List (Str × RMatch) × Str
  | [] => ([], [])
  | c :: rest =>
    match skip with
    | k + 1 => altScan bs k rest
    | 0 =>
      match altMatchAt bs (c :: rest) with
      | some b =>
        let r := altScan bs (b.length - 1) rest
        (([], ⟨b, []⟩) :: r.1, r.2)
      | none => consPreD c (altScan bs 0 rest)

def altDecomp (bs : List Str) (content : Str) : List (Str × RMatch) × Str :=
  altScan bs 0 content

def altSearch (bs : List Str) : Str → Bool
  | [] => false
  | c :: rest => (altMatchAt bs (c :: rest)).isSome || altSearch bs rest

/-- A compiled alternation `b1|b2|...` of non-empty literal branches. -/
def altEngine (bs : List Str) : PatternEngine :=
  ⟨altDecomp bs, altSearch bs⟩

/-- The `mode` parameter of `replace_content` (`Literal["literal", "regex"]`). -/
inductive RMode where
  | literal
  | regex
  deriving Repr, DecidableEq

/-- Model of `ReplaceContentTool.replace_content` on a file: `literal` mode escapes the
needle before compiling (yielding the literal engine), `regex` mode compiles
the needle verbatim through the external engine `compileRegex`. -/
def replaceContentTool (compileRegex : Str → PatternEngine) (mode : RMode)
    (needle : Str) (repl : Str) (allowMultiple : Bool) (file : Str) :
    Except ReplaceErr (Str × Nat) × Str :=
  let e := match mode with
           | .literal => litEngine needle
           | .regex => compileRegex needle
  replaceContentOnFile e repl allowMultiple file

/-- Number of positions of `s` at which `needle` occurs as a literal
substring (the notion of "contains the needle exactly once"). -/
def countOccs (needle s : Str) : Nat :=
  ((List.range (s.length + 1)).filter (fun i => needle.isPrefixOf (s.drop i))).length

/-- Fixed success token returned by mutating tools. Modelled from the spec:
`SUCCESS_RESULT` is defined in `serena/tools/tools_base.py`, which is not
part of the sources; the spec only requires a fixed success token (§6). -/
def SUCCESS_RESULT : String := "OK"

/-- Python `content.endswith("\n")`. -/
def endsWithNL (s : Str) : Bool :=
  match s.reverse with
  | '\n' :: _ => true
  | _ => false

/-- The trailing-newline normalization shared by `InsertAtLineTool.apply`
and `ReplaceLinesTool.apply`: append a newline only when one is absent. -/
def normalizeTrailing (s : Str) : Str :=
  if endsWithNL s then s else s ++ ['\n']

/-- Model of `DeleteLinesTool.apply` (lines 158-162), with the external
`code_editor.delete_lines` abstracted as `del0`. -/
def deleteLinesToolP {ε : Type} (del0 : Str → Nat → Nat → Except ε Str)
    (fs : Str) (startLine endLine : Nat) : Except ε (String × Str) :=
  match del0 fs startLine endLine with
  | .error e => .error e
  | .ok fs1 => .ok (SUCCESS_RESULT, fs1)

/-- Model of `InsertAtLineTool.apply` (lines 182-188), with the external
`code_editor.insert_at_line` abstracted as `ins0`. -/
def insertAtLineToolP {ε : Type} (ins0 : Str → Nat → Str → Except ε Str)
    (fs : Str) (line : Nat) (content : Str) : Except ε (String × Str) :=
  let content1 := normalizeTrailing content
  match ins0 fs line content1 with
  | .error e => .error e
  | .ok fs1 => .ok (SUCCESS_RESULT, fs1)

/-- Model of `ReplaceLinesTool.apply` (lines 168-176): normalize the content, run the
delete tool, return its result unchanged when it is not the success token,
otherwise run the insert tool and return the success token. -/
def replaceLinesToolP {ε : Type} (del0 : Str → Nat → Nat → Except ε Str)
    (ins0 : Str → Nat → Str → Except ε Str) (fs : Str)
    (startLine endLine : Nat) (content : Str) : Except ε (String × Str) :=
  let content1 := normalizeTrailing content
  match deleteLinesToolP del0 fs startLine endLine with
  | .error e => .error e
  | .ok (r, fs1) =>
    if r ≠ SUCCESS_RESULT then .ok (r, fs1)
    else
      match insertAtLineToolP ins0 fs1 startLine content1 with
      | .error e => .error e
      | .ok (_, fs2) => .ok (SUCCESS_RESULT, fs2)

/-- Split content into lines, each keeping its terminating newline (the
line-indexed view of a file). -/
def splitLinesKeep : Str → List Str
  | [] => []
  | c :: rest =>
    if c = '\n' then ['\n'] :: splitLinesKeep rest
    else
      match splitLinesKeep rest with
      | [] => [[c]]
      | l :: ls => (c :: l) :: ls

/-- Modelled from the spec: `code_editor.insert_at_line`
(`serena.code_editor`, not part of the sources) — inserts the content
immediately before the given zero-indexed line (§4.3). -/
def insertAtLineModel (fs : Str) (line : Nat) (content : Str) : Str :=
  ((splitLinesKeep fs).take line).flatten ++ content ++
    ((splitLinesKeep fs).drop line).flatten

/-- JSON-like values held by symbol dictionaries (`null` is Python `None`). -/
inductive JVal where
  | null
  | str (s : Str)
  | num (n : Int)
  | boolean (b : Bool)
  | dict (entries : List (String × JVal))
  | arr (elems : List JVal)

/-- A Python dict with string keys, as an insertion-ordered association
list; Python dict keys are unique. -/
abbrev SymDict := List (String × JVal)

/-- Python `d.get(k)` / `d[k]`. -/
def dictGet (d : SymDict) (k : String) : Option JVal :=
  match d with
  | [] => none
  | (k1, v) :: rest => if k1 = k then some v else dictGet rest k

/-- Python `d.pop(k, None)`: remove the key. On the unique-key lists that represent
Python dicts, removing every binding of `k` is removing the one binding. -/
def dictPop (d : SymDict) (k : String) : SymDict :=
  match d with
  | [] => []
  | (k1, v) :: rest => if k1 = k then dictPop rest k else (k1, v) :: dictPop rest k

/-- Python `d[k] = v`: replace the value in place (at its position) when the key
exists, append the binding otherwise. -/
def dictSet (d : SymDict) (k : String) (v : JVal) : SymDict :=
  match d with
  | [] => [(k, v)]
  | (k1, w) :: rest => if k1 = k then (k, v) :: rest else (k1, w) :: dictSet rest k v

/-- Failure kinds of the symbol-tools path. -/
inductive SymErr where
  | KeyError
  | AttributeError
  | AssertionError
  deriving Repr, DecidableEq

/-- The read `symbol_dict.get("location", dict()).get("relative_path")`
(`symbol_tools.py` line 20): absent location behaves as an empty dict; a
present location that is not a mapping raises `AttributeError`; a
`relative_path` value of `None` is collapsed to `none` (the code only tests
`is not None`). -/
def getLocRelPath (d : SymDict) : Except SymErr (Option JVal) :=
  match dictGet d "location" with
  | none => .ok none
  | some (JVal.dict loc) =>
    .ok (match dictGet loc "relative_path" with
         | some JVal.null => none
         | x => x)
  | some _ => .error .AttributeError

/-- Model of `_sanitize_symbol_dict` (`symbol_tools.py` lines 18-25): hoist
`location.relative_path` to a top-level `relative_path` when present, drop
`location` (tolerating its absence), then drop `name` (raising `KeyError`
when absent). The Python function operates on a shallow copy; this model is
pure, so the copy is implicit. -/
def sanitizeSymbolDict (d : SymDict) : Except SymErr SymDict :=
  match getLocRelPath d with
  | .error e => .error e
  | .ok rp =>
    let d1 := match rp with
              | some v => dictSet d "relative_path" v
              | none => d
    let d2 := dictPop d1 "location"
    match dictGet d2 "name" with
    | some _ => .ok (dictPop d2 "name")
    | none => .error .KeyError

/-- The sanitization of every result of `FindSymbolTool.apply` (line 78);
the external `to_dict` outputs are taken as the input list. -/
def findSymbolSanitize (ds : List SymDict) : Except SymErr (List SymDict) :=
  mapExcept sanitizeSymbolDict ds

/-- One entry of the external `find_referencing_symbols` response:
`dict` is `ref.symbol.to_dict(kind=True, location=True, depth=0,
include_body=False)`, `relPath` is `ref.symbol.location.relative_path`,
`line` is `ref.line`. -/
structure SymbolRef where
  dict : SymDict
  relPath : Option Str
  line : Nat

/-- The per-reference body of `FindReferencingSymbolsTool.apply`
(lines 107-117): sanitize the descriptor; when bodies were not requested,
assert the reference's relative path is present and attach the context
snippet fetched from the project's raw-text accessor `acc` with one line of
context before and after (`context_lines_before=1, context_lines_after=1`).
`acc path line before after` is
`retrieve_content_around_line(...).to_display_string()`. -/
def processReference (acc : Str → Nat → Nat → Nat → Str) (includeBody : Bool)
    (ref : SymbolRef) : Except SymErr SymDict :=
  match sanitizeSymbolDict ref.dict with
  | .error e => .error e
  | .ok d =>
    if includeBody then .ok d
    else
      match ref.relPath with
      | none => .error .AssertionError
      | some rp =>
        .ok (dictSet d "content_around_reference" (JVal.str (acc rp ref.line 1 1)))

/-- Model of `FindReferencingSymbolsTool.apply` (lines 86-119): `include_body` is
hard-coded to `False` (line 95). -/
def findReferencingSymbolsTool (acc : Str → Nat → Nat → Nat → Str)
    (refs : List SymbolRef) : Except SymErr (List SymDict) :=
  mapExcept (processReference acc false) refs

/-- The file-system facts `GetSymbolsOverviewTool.apply` consults
(`os.path.exists`, `os.path.isdir`). -/
structure FSModel where
  pathExists : String → Bool
  isDir : String → Bool

inductive OverviewErr where
  | NotFound
  | InvalidTarget
  deriving Repr, DecidableEq

/-- Model of `GetSymbolsOverviewTool.apply` (lines 40-50): fail `NotFound`
(`FileNotFoundError`) when the path does not exist, `InvalidTarget`
(`ValueError`) when it is a directory, otherwise return the file's top-level
symbols. Modelled from the spec: the external symbol retriever
(`get_symbol_overview(relative_path, depth)[relative_path]`, not part of the
sources) returns the file's symbol list, empty for a file with zero
top-level symbols; it is abstracted as `retr`. -/
def getSymbolsOverviewTool (fs : FSModel) (retr : String → Nat → List SymDict)
    (path : String) (depth : Nat) : Except OverviewErr (List SymDict) :=
  if !fs.pathExists path then .error .NotFound
  else if fs.isDir path then .error .InvalidTarget
  else .ok (retr path depth)

deriving instance DecidableEq for Except

/-- Is an `Except` value a success? -/
def exIsOk {ε α : Type} : Except ε α → Bool
  | .ok _ => true
  | .error _ => false

theorem exIsOk_iff {ε α : Type} {x : Except ε α} :
    exIsOk x = true ↔ ∃ y, x = .ok y := by
  cases x <;> simp [exIsOk]

theorem mapExcept_ok_of_all {α β ε : Type} (f : α → Except ε β) :
    ∀ xs : List α, xs.all (fun x => exIsOk (f x)) = true →
      ∃ ys, mapExcept f xs = .ok ys := by
  intro xs
  induction xs with
  | nil => exact fun _ => ⟨[], rfl⟩
  | cons x xs ih =>
    intro h
    simp only [List.all_cons, Bool.and_eq_true] at h
    obtain ⟨y, hy⟩ := exIsOk_iff.mp h.1
    obtain ⟨ys, hys⟩ := ih h.2
    exact ⟨y :: ys, by simp [mapExcept, hy, hys]⟩

theorem exIsOk_map {ε α β : Type} (f : α → β) (x : Except ε α) :
    exIsOk (x.map f) = exIsOk x := by
  cases x <;> rfl

theorem mapExcept_cons_ok {α β ε : Type} (f : α → Except ε β) (x : α)
    (xs : List α) {y : β} (h : f x = .ok y) :
    mapExcept f (x :: xs) =
      match mapExcept f xs with
      | .error e => .error e
      | .ok ys => .ok (y :: ys) := by
  simp [mapExcept, h]

theorem mapExcept_error_head {α β ε : Type} (f : α → Except ε β) (x : α)
    (xs : List α) {err : ε} (h : f x = .error err) :
    mapExcept f (x :: xs) = .error err := by
  simp [mapExcept, h]

/-- An ambiguous match per the per-match check of
`_create_replacement_function`. -/
def isAmbiguousB (e : PatternEngine) (m : RMatch) : Bool :=
  m.text.contains '\n' && e.search (m.text.drop 1)

theorem validateAndReplace_ambiguous (e : PatternEngine) (tmpl : Str)
    (m : RMatch) (h : isAmbiguousB e m = true) :
    validateAndReplace e tmpl m = .error .AmbiguousMatch := by
  simp only [validateAndReplace, isAmbiguousB] at h ⊢
  rw [h]
  simp

theorem validateAndReplace_not_ambiguous (e : PatternEngine) (tmpl : Str)
    (m : RMatch) (h : isAmbiguousB e m = false) :
    validateAndReplace e tmpl m = expandBackrefs tmpl m := by
  simp only [validateAndReplace, isAmbiguousB] at h ⊢
  rw [h]
  simp

theorem mapExcept_ambiguous (e : PatternEngine) (tmpl : Str) :
    ∀ segs : List (Str × RMatch),
      segs.all (fun pm => exIsOk (expandBackrefs tmpl pm.2)) = true →
      segs.any (fun pm => isAmbiguousB e pm.2) = true →
      mapExcept (fun pm => (validateAndReplace e tmpl pm.2).map (fun r => pm.1 ++ r)) segs =
        .error .AmbiguousMatch := by
  intro segs
  induction segs with
  | nil => simp
  | cons pm rest ih =>
    intro hall hany
    simp only [List.all_cons, Bool.and_eq_true] at hall
    by_cases hamb : isAmbiguousB e pm.2 = true
    · have hv := validateAndReplace_ambiguous e tmpl pm.2 hamb
      exact mapExcept_error_head _ pm rest (by simp [hv, Except.map])
    · have hvb : isAmbiguousB e pm.2 = false := by
        cases h : isAmbiguousB e pm.2
        · rfl
        · exact absurd h hamb
      have hv := validateAndReplace_not_ambiguous e tmpl pm.2 hvb
      obtain ⟨y, hy⟩ := exIsOk_iff.mp hall.1
      have hrest : rest.any (fun pm => isAmbiguousB e pm.2) = true := by
        simp only [List.any_cons, Bool.or_eq_true] at hany
        rcases hany with h | h
        · exact absurd h hamb
        · exact h
      have hfpm : (validateAndReplace e tmpl pm.2).map (fun r => pm.1 ++ r) = .ok (pm.1 ++ y) := by
        simp [hv, hy, Except.map]
      rw [mapExcept_cons_ok
        (fun pm : Str × RMatch => (validateAndReplace e tmpl pm.2).map (fun r => pm.1 ++ r))
        pm rest hfpm, ih hall.2 hrest]

/-- C1 (amended): for every compiled pattern, template, allow-multiple flag
and file content, `replace_content` fails with `NoMatch` when the pattern
matches zero times; it fails with `TooManyMatches` when the pattern matches
more than once while `allow_multiple_occurrences=false`, provided the
per-match replacement function succeeds on every match (an ambiguous match
or an invalid backreference makes their error win instead, see the
counterexample); and every failing call leaves the file unchanged. -/
theorem replace_content_failure_modes (e : PatternEngine) (tmpl : Str)
    (allow : Bool) (file : Str) :
    ((e.decomp file).1.length = 0 →
      replaceContentOnFile e tmpl allow file = (.error .NoMatch, file)) ∧
    (1 < (e.decomp file).1.length → allow = false →
      (e.decomp file).1.all (fun pm => exIsOk (validateAndReplace e tmpl pm.2)) = true →
      replaceContentOnFile e tmpl allow file = (.error .TooManyMatches, file)) ∧
    (∀ err, (replaceContentOnFile e tmpl allow file).1 = .error err →
      (replaceContentOnFile e tmpl allow file).2 = file) := by
  refine ⟨?_, ?_, ?_⟩
  · intro h
    rcases hsd : e.decomp file with ⟨segs, tl⟩
    rw [hsd] at h
    simp only at h
    have hnil : segs = [] := List.length_eq_zero.mp h
    subst hnil
    simp [replaceContentOnFile, runEditTransaction, replaceContentStage, subn, hsd, mapExcept]
  · intro hlen hallow hall
    rcases hsd : e.decomp file with ⟨segs, tl⟩
    rw [hsd] at hlen hall
    simp only at hlen hall
    have hfun : (fun pm : Str × RMatch =>
        exIsOk ((validateAndReplace e tmpl pm.2).map (fun r => pm.1 ++ r))) =
        (fun pm : Str × RMatch => exIsOk (validateAndReplace e tmpl pm.2)) :=
      funext fun pm => exIsOk_map _ _
    have hall2 : segs.all
        (fun pm => exIsOk ((validateAndReplace e tmpl pm.2).map (fun r => pm.1 ++ r))) = true := by
      rw [hfun]
      exact hall
    obtain ⟨ys, hys⟩ := mapExcept_ok_of_all
      (fun pm => (validateAndReplace e tmpl pm.2).map (fun r => pm.1 ++ r)) segs hall2
    have h0 : ¬ segs.length = 0 := by omega
    have h1 : segs.length > 1 := hlen
    subst hallow
    simp [replaceContentOnFile, runEditTransaction, replaceContentStage, subn, hsd, hys, h0, h1]
  · intro err herr
    unfold replaceContentOnFile runEditTransaction at herr ⊢
    cases hst : replaceContentStage e tmpl allow file with
    | ok v =>
      obtain ⟨u, n⟩ := v
      rw [hst] at herr
      simp at herr
    | error e2 => rfl

/-- Witness for C1: `"a"` occurs twice in `"aa"`; with
`allow_multiple_occurrences=false` the call fails `TooManyMatches` and the
file is unchanged. -/
theorem replace_content_failure_modes_witness :
    replaceContentOnFile (litEngine "a".data) "r".data false "aa".data =
      (.error .TooManyMatches, "aa".data) := by
  have h := replace_content_failure_modes (litEngine "a".data) "r".data false "aa".data
  exact h.2.1 (by decide) rfl (by decide)

/-- Counterexample to C1 as stated: the regex `a\nb|b` matches `"a\nb b"`
twice and `allow_multiple_occurrences=false`, yet the call fails with
`AmbiguousMatch` (the first match's per-match ambiguity check fires inside
the substitution, before the occurrence count is examined), not with
`TooManyMatches`. -/
theorem replace_content_failure_modes_counterexample :
    ((altEngine ["a\nb".data, "b".data]).decomp "a\nb b".data).1.length = 2 ∧
    replaceContentOnFile (altEngine ["a\nb".data, "b".data]) "x".data false "a\nb b".data =
      (.error .AmbiguousMatch, "a\nb b".data) := by decide

/-- C2 (amended): per match during substitution, a match whose text contains
a newline and whose text minus its first character is still matched by the
same compiled pattern makes the replacement function fail `AmbiguousMatch`;
a match whose text contains no newline is never subjected to the check; and
the whole operation fails with `AmbiguousMatch` leaving the file unchanged
whenever some match is ambiguous, provided backreference expansion succeeds
on every match (an invalid backreference on an earlier match wins instead,
see the counterexample). -/
theorem ambiguous_match_check (e : PatternEngine) (tmpl : Str) (allow : Bool)
    (file : Str) (m : RMatch) :
    (m.text.contains '\n' = true → e.search (m.text.drop 1) = true →
      validateAndReplace e tmpl m = .error .AmbiguousMatch) ∧
    (m.text.contains '\n' = false →
      validateAndReplace e tmpl m = expandBackrefs tmpl m) ∧
    ((e.decomp file).1.all (fun pm => exIsOk (expandBackrefs tmpl pm.2)) = true →
     (e.decomp file).1.any (fun pm => isAmbiguousB e pm.2) = true →
     replaceContentOnFile e tmpl allow file = (.error .AmbiguousMatch, file)) := by
  refine ⟨?_, ?_, ?_⟩
  · intro h1 h2
    exact validateAndReplace_ambiguous e tmpl m (by unfold isAmbiguousB; rw [h1, h2]; rfl)
  · intro h
    exact validateAndReplace_not_ambiguous e tmpl m (by unfold isAmbiguousB; rw [h]; simp)
  · intro hall hany
    rcases hsd : e.decomp file with ⟨segs, tl⟩
    rw [hsd] at hall hany
    simp only at hall hany
    have hmap := mapExcept_ambiguous e tmpl segs hall hany
    simp [replaceContentOnFile, runEditTransaction, replaceContentStage, subn, hsd, hmap]

/-- Witness for C2: the pattern `a\nb|b` on the file `"a\nb"` produces one
match, `"a\nb"`, which spans a newline and whose tail `"\nb"` still matches
(branch `b`); the call fails `AmbiguousMatch` and the file is unchanged.
The second conjunct is exercised on a newline-free match. -/
theorem ambiguous_match_check_witness :
    validateAndReplace (altEngine ["a\nb".data, "b".data]) "x".data ⟨"a\nb".data, []⟩ =
      .error .AmbiguousMatch ∧
    validateAndReplace (altEngine ["a\nb".data, "b".data]) "x".data ⟨"q".data, []⟩ =
      expandBackrefs "x".data ⟨"q".data, []⟩ ∧
    replaceContentOnFile (altEngine ["a\nb".data, "b".data]) "x".data false "a\nb".data =
      (.error .AmbiguousMatch, "a\nb".data) := by
  refine ⟨?_, ?_, ?_⟩
  · exact (ambiguous_match_check (altEngine ["a\nb".data, "b".data]) "x".data false
      "a\nb".data ⟨"a\nb".data, []⟩).1 (by decide) (by decide)
  · exact (ambiguous_match_check (altEngine ["a\nb".data, "b".data]) "x".data false
      "a\nb".data ⟨"q".data, []⟩).2.1 (by decide)
  · exact (ambiguous_match_check (altEngine ["a\nb".data, "b".data]) "x".data false
      "a\nb".data ⟨"q".data, []⟩).2.2 (by decide) (by decide)

/-- Counterexample to C2 as stated: with pattern `b|a\nb` on `"b a\nb"`, the
second match `"a\nb"` is ambiguous (its text contains a newline and its tail
`"\nb"` still matches), yet the operation fails with the invalid-backreference
error of the first match's template expansion (`$!5`, `IndexError: no such
group`), not with `AmbiguousMatch`. -/
theorem ambiguous_match_check_counterexample :
    (((altEngine ["b".data, "a\nb".data]).decomp "b a\nb".data).1.any
        (fun pm => isAmbiguousB (altEngine ["b".data, "a\nb".data]) pm.2)) = true ∧
    replaceContentOnFile (altEngine ["b".data, "a\nb".data]) "$!5".data false "b a\nb".data =
      (.error .NoSuchGroup, "b a\nb".data) := by decide

theorem isPrefixOf_append_self : ∀ (n t : Str), n.isPrefixOf (n ++ t) = true := by
  intro n t
  induction n with
  | nil => simp [List.isPrefixOf]
  | cons c n ih => simp [List.isPrefixOf, ih]

theorem length_le_of_isPrefixOf : ∀ {n t : Str}, n.isPrefixOf t = true → n.length ≤ t.length := by
  intro n
  induction n with
  | nil => intro t _; simp
  | cons c n ih =>
    intro t h
    cases t with
    | nil => simp [List.isPrefixOf] at h
    | cons d t =>
      simp only [List.isPrefixOf, Bool.and_eq_true] at h
      have := ih h.2
      simp only [List.length_cons]
      omega

theorem isPrefixOf_false_of_longer {n t : Str} (h : t.length < n.length) :
    n.isPrefixOf t = false := by
  cases hp : n.isPrefixOf t
  · rfl
  · exact absurd (length_le_of_isPrefixOf hp) (by omega)

theorem litSearch_short {needle : Str} (hne : needle ≠ []) :
    ∀ s : Str, s.length < needle.length → litSearch needle s = false := by
  intro s
  induction s with
  | nil =>
    intro _
    cases needle with
    | nil => exact absurd rfl hne
    | cons c n => rfl
  | cons c rest ih =>
    intro h
    simp only [litSearch, Bool.or_eq_false_iff]
    constructor
    · exact isPrefixOf_false_of_longer h
    · exact ih (by simp at h ⊢; omega)

theorem litSearch_eq_true_iff (needle : Str) :
    ∀ s : Str, litSearch needle s = true ↔ ∃ i, needle.isPrefixOf (s.drop i) = true := by
  intro s
  induction s with
  | nil =>
    simp only [litSearch]
    constructor
    · intro h
      refine ⟨0, ?_⟩
      cases needle with
      | nil => rfl
      | cons c n => simp [List.isEmpty] at h
    · rintro ⟨i, hi⟩
      simp only [List.drop_nil] at hi
      cases needle with
      | nil => rfl
      | cons c n => simp [List.isPrefixOf] at hi
  | cons c rest ih =>
    simp only [litSearch, Bool.or_eq_true]
    constructor
    · rintro (h | h)
      · exact ⟨0, h⟩
      · obtain ⟨i, hi⟩ := ih.mp h
        exact ⟨i + 1, hi⟩
    · rintro ⟨i, hi⟩
      cases i with
      | zero => exact Or.inl hi
      | succ j => exact Or.inr (ih.mpr ⟨j, hi⟩)

theorem litScan_of_search_false {needle : Str} :
    ∀ s : Str, litSearch needle s = false → litScan needle 0 s = ([], s) := by
  intro s
  induction s with
  | nil => intro _; rfl
  | cons c rest ih =>
    intro h
    simp only [litSearch, Bool.or_eq_false_iff] at h
    simp only [litScan, h.1, Bool.false_eq_true, if_false]
    rw [ih h.2]
    rfl

theorem litScan_skip (needle : Str) :
    ∀ (xs tail : Str), litScan needle xs.length (xs ++ tail) = litScan needle 0 tail := by
  intro xs
  induction xs with
  | nil => intro tail; rfl
  | cons c xs ih => intro tail; simpa [litScan] using ih tail

theorem litScan_zero_cons_pos {needle : Str} {c : Char} {rest : Str}
    (h : needle.isPrefixOf (c :: rest) = true) :
    litScan needle 0 (c :: rest) =
      (([], (⟨needle, []⟩ : RMatch)) :: (litScan needle (needle.length - 1) rest).1,
        (litScan needle (needle.length - 1) rest).2) := by
  simp [litScan, h]

theorem litScan_zero_cons_neg {needle : Str} {c : Char} {rest : Str}
    (h : needle.isPrefixOf (c :: rest) = false) :
    litScan needle 0 (c :: rest) = consPreD c (litScan needle 0 rest) := by
  simp [litScan, h]

theorem litScan_unique {needle : Str} (hne : needle ≠ []) :
    ∀ (pre post : Str),
      (∀ i, i < pre.length → needle.isPrefixOf ((pre ++ needle ++ post).drop i) = false) →
      litSearch needle post = false →
      litScan needle 0 (pre ++ needle ++ post) = ([(pre, ⟨needle, []⟩)], post) := by
  intro pre
  induction pre with
  | nil =>
    intro post _ hpost
    cases needle with
    | nil => exact absurd rfl hne
    | cons n0 n1 =>
      have h : (n0 :: n1).isPrefixOf (n0 :: (n1 ++ post)) = true :=
        isPrefixOf_append_self (n0 :: n1) post
      have hgoal : litScan (n0 :: n1) 0 (n0 :: (n1 ++ post)) =
          ([([], ⟨n0 :: n1, []⟩)], post) := by
        rw [litScan_zero_cons_pos h]
        have hskip : litScan (n0 :: n1) ((n0 :: n1).length - 1) (n1 ++ post) =
            litScan (n0 :: n1) 0 post := by
          have he : (n0 :: n1).length - 1 = n1.length := by simp
          rw [he]
          exact litScan_skip (n0 :: n1) n1 post
        rw [hskip, litScan_of_search_false post hpost]
      exact hgoal
  | cons c pre ih =>
    intro post hpre hpost
    have h0 : needle.isPrefixOf (c :: (pre ++ needle ++ post)) = false := by
      have := hpre 0 (by simp)
      simpa using this
    have hrec := ih post (fun i hi => by
      have := hpre (i + 1) (by simp; omega)
      simpa using this) hpost
    have hgoal : litScan needle 0 (c :: (pre ++ needle ++ post)) =
        ([(c :: pre, ⟨needle, []⟩)], post) := by
      rw [litScan_zero_cons_neg h0, hrec]
      rfl
    exact hgoal

theorem hasTok_tail {c : Char} {l : Str} (h : hasTok (c :: l) = false) :
    hasTok l = false := by
  cases l with
  | nil => rfl
  | cons c2 l2 =>
    cases l2 with
    | nil => rfl
    | cons c3 l3 =>
      simp only [hasTok, Bool.or_eq_false_iff] at h
      exact h.2

theorem expandScan_noTok (g : Nat → Except ReplaceErr (Option Str)) :
    ∀ (l : Str) (st : ScanState), (st = .normal ∨ st = .dollar ∨ st = .bang) →
      hasTok (stRender st ++ l) = false → expandScan g st l = .ok (stRender st ++ l) := by
  intro l
  induction l with
  | nil => rintro st (rfl | rfl | rfl) _ <;> rfl
  | cons c rest ih =>
    rintro st (rfl | rfl | rfl) h
    · by_cases hc : c = '$'
      · subst hc
        simp only [expandScan, if_pos rfl]
        exact ih .dollar (Or.inr (Or.inl rfl)) h
      · simp only [expandScan, if_neg hc]
        have hrest : hasTok rest = false := hasTok_tail (l := rest) h
        rw [ih .normal (Or.inl rfl) hrest]
        rfl
    · by_cases hb : c = '!'
      · subst hb
        simp only [expandScan, if_pos rfl]
        exact ih .bang (Or.inr (Or.inr rfl)) h
      · by_cases hc : c = '$'
        · subst hc
          simp only [expandScan, if_neg (by decide : ¬ ('$' : Char) = '!'), if_pos rfl]
          have h2 : hasTok ('$' :: rest) = false :=
            hasTok_tail (show hasTok ('$' :: '$' :: rest) = false from h)
          rw [ih .dollar (Or.inr (Or.inl rfl)) h2]
          rfl
        · simp only [expandScan, if_neg hb, if_neg hc]
          have h2 : hasTok rest = false :=
            hasTok_tail (hasTok_tail (show hasTok ('$' :: c :: rest) = false from h))
          rw [ih .normal (Or.inl rfl) h2]
          rfl
    · by_cases hd : c.isDigit
      · exfalso
        have : hasTok ('$' :: '!' :: c :: rest) = true := by
          simp [hasTok, hd]
        rw [show stRender ScanState.bang ++ c :: rest = '$' :: '!' :: c :: rest from rfl] at h
        rw [this] at h
        cases h
      · by_cases hc : c = '$'
        · subst hc
          simp only [expandScan, hd, Bool.false_eq_true, if_false, if_pos rfl]
          have h2 : hasTok ('$' :: rest) = false :=
            hasTok_tail (hasTok_tail (show hasTok ('$' :: '!' :: '$' :: rest) = false from h))
          rw [ih .dollar (Or.inr (Or.inl rfl)) h2]
          rfl
        · simp only [expandScan, hd, Bool.false_eq_true, if_false, if_neg hc]
          have h2 : hasTok rest = false :=
            hasTok_tail (hasTok_tail
              (hasTok_tail (show hasTok ('$' :: '!' :: c :: rest) = false from h)))
          rw [ih .normal (Or.inl rfl) h2]
          rfl

/-- A token-free template expands to itself. -/
theorem expandBackrefs_noTok (tmpl : Str) (m : RMatch) (h : hasTok tmpl = false) :
    expandBackrefs tmpl m = .ok tmpl := by
  have := expandScan_noTok (matchGroup m) tmpl .normal (Or.inl rfl) h
  simpa [expandBackrefs, expandAux, stRender] using this

theorem nil_isPrefixOf (t : Str) : ([] : Str).isPrefixOf t = true := by
  cases t <;> rfl

theorem countOccs_nil_needle (s : Str) : countOccs [] s = s.length + 1 := by
  unfold countOccs
  have : ∀ i, ([] : Str).isPrefixOf (s.drop i) = true := fun i => nil_isPrefixOf _
  simp [List.filter_eq_self.mpr (fun a _ => this a)]

theorem occ_at_pre (needle pre post : Str) :
    needle.isPrefixOf ((pre ++ needle ++ post).drop pre.length) = true := by
  have h1 : (pre ++ needle ++ post).drop pre.length = needle ++ post := by
    have := List.drop_left pre (needle ++ post)
    simpa using this
  rw [h1]
  exact isPrefixOf_append_self needle post

theorem countOccs_one_unique {needle pre post : Str} (hne : needle ≠ [])
    (h : countOccs needle (pre ++ needle ++ post) = 1) :
    (∀ i, i < pre.length → needle.isPrefixOf ((pre ++ needle ++ post).drop i) = false) ∧
      litSearch needle post = false := by
  have hlenpre : pre.length < (pre ++ needle ++ post).length + 1 := by
    simp [List.length_append]
    omega
  have hmem : pre.length ∈ (List.range ((pre ++ needle ++ post).length + 1)).filter
      (fun i => needle.isPrefixOf ((pre ++ needle ++ post).drop i)) := by
    rw [List.mem_filter]
    exact ⟨List.mem_range.mpr hlenpre, occ_at_pre needle pre post⟩
  unfold countOccs at h
  obtain ⟨a, ha⟩ := List.length_eq_one.mp h
  rw [ha] at hmem
  have hapre : a = pre.length := by
    rcases List.mem_singleton.mp hmem with h1
    omega
  subst hapre
  have hkey : ∀ j, j < (pre ++ needle ++ post).length + 1 →
      needle.isPrefixOf ((pre ++ needle ++ post).drop j) = true → j = pre.length := by
    intro j hj hpj
    have : j ∈ (List.range ((pre ++ needle ++ post).length + 1)).filter
        (fun i => needle.isPrefixOf ((pre ++ needle ++ post).drop i)) := by
      rw [List.mem_filter]
      exact ⟨List.mem_range.mpr hj, hpj⟩
    rw [ha] at this
    exact List.mem_singleton.mp this
  constructor
  · intro i hi
    cases hp : needle.isPrefixOf ((pre ++ needle ++ post).drop i)
    · rfl
    · exfalso
      have := hkey i (by omega) hp
      omega
  · cases hs : litSearch needle post
    · rfl
    · exfalso
      obtain ⟨k, hk⟩ := (litSearch_eq_true_iff needle post).mp hs
      have hdrop : (pre ++ needle ++ post).drop (pre.length + needle.length + k) =
          post.drop k := by
        rw [show pre ++ needle ++ post = (pre ++ needle) ++ post from by simp]
        rw [show pre.length + needle.length + k = (pre ++ needle).length + k from by
          simp [List.length_append]]
        rw [List.drop_append]
      have hocc : needle.isPrefixOf ((pre ++ needle ++ post).drop
          (pre.length + needle.length + k)) = true := by rw [hdrop]; exact hk
      have hlt : pre.length + needle.length + k < (pre ++ needle ++ post).length + 1 := by
        by_contra hge
        push_neg at hge
        have : (pre ++ needle ++ post).drop (pre.length + needle.length + k) = [] :=
          List.drop_eq_nil_of_le (by omega)
        rw [this] at hocc
        cases needle with
        | nil => exact hne rfl
        | cons c n => simp [List.isPrefixOf] at hocc
      have := hkey _ hlt hocc
      have hnl : 0 < needle.length := List.length_pos.mpr hne
      omega

theorem validate_literal_match (needle repl : Str) (hne : needle ≠ [])
    (hrepl : hasTok repl = false) :
    validateAndReplace (litEngine needle) repl ⟨needle, []⟩ = .ok repl := by
  have hs : litSearch needle (needle.drop 1) = false := by
    apply litSearch_short hne
    cases needle with
    | nil => exact absurd rfl hne
    | cons c n => simp
  have hamb : isAmbiguousB (litEngine needle) ⟨needle, []⟩ = false := by
    show (needle.contains '\n' && litSearch needle (needle.drop 1)) = false
    rw [hs, Bool.and_false]
  rw [validateAndReplace_not_ambiguous _ _ _ hamb]
  exact expandBackrefs_noTok repl _ hrepl

/-- C4 (amended): for every content `C` containing needle `N` exactly once
as a literal substring, and every replacement that contains no
backreference token `$!N`, replace-content in literal mode with
`allow_multiple_occurrences=false` succeeds and produces `C` with that
single occurrence replaced by the replacement, with occurrence count 1
(a replacement containing a backreference token is expanded against the
escaped pattern's empty group list instead, see the counterexample). -/
theorem replace_literal_single_occurrence (cr : Str → PatternEngine)
    (needle repl pre post : Str) (hrepl : hasTok repl = false)
    (hcount : countOccs needle (pre ++ needle ++ post) = 1) :
    replaceContentTool cr .literal needle repl false (pre ++ needle ++ post) =
      (.ok (pre ++ repl ++ post, 1), pre ++ repl ++ post) := by
  by_cases hne : needle = []
  · subst hne
    rw [countOccs_nil_needle] at hcount
    have hslen : (pre ++ [] ++ post).length = 0 := by omega
    simp only [List.append_nil, List.nil_append, List.length_append] at hslen
    have hpre : pre = [] := List.length_eq_zero.mp (by omega)
    have hpost : post = [] := List.length_eq_zero.mp (by omega)
    subst hpre hpost
    have hv : validateAndReplace (litEngine []) repl ⟨[], []⟩ = .ok repl := by
      rw [validateAndReplace_not_ambiguous _ _ _
        (by decide : isAmbiguousB (litEngine ([] : Str)) ⟨[], []⟩ = false)]
      exact expandBackrefs_noTok repl _ hrepl
    have hdecomp : (litEngine ([] : Str)).decomp [] = ([([], ⟨[], []⟩)], []) := rfl
    have hmap : mapExcept (fun pm =>
        (validateAndReplace (litEngine []) repl pm.2).map (fun r => pm.1 ++ r))
        [([], ⟨[], []⟩)] = .ok [repl] := by
      simp [mapExcept, hv, Except.map]
    simp [replaceContentTool, replaceContentOnFile, runEditTransaction,
      replaceContentStage, subn, hdecomp, hmap]
  · obtain ⟨hpre, hpost⟩ := countOccs_one_unique hne hcount
    have hdecomp : (litEngine needle).decomp (pre ++ needle ++ post) =
        ([(pre, ⟨needle, []⟩)], post) := by
      unfold litEngine litDecomp litDecompNE
      have hie : needle.isEmpty = false := by
        cases needle with
        | nil => exact absurd rfl hne
        | cons c n => rfl
      simp only [hie, Bool.false_eq_true, if_false]
      exact litScan_unique hne pre post hpre hpost
    have hv := validate_literal_match needle repl hne hrepl
    have hmap : mapExcept (fun pm =>
        (validateAndReplace (litEngine needle) repl pm.2).map (fun r => pm.1 ++ r))
        [(pre, ⟨needle, []⟩)] = .ok [pre ++ repl] := by
      simp [mapExcept, hv, Except.map]
    show replaceContentOnFile (litEngine needle) repl false (pre ++ needle ++ post) =
      (.ok (pre ++ repl ++ post, 1), pre ++ repl ++ post)
    unfold replaceContentOnFile runEditTransaction replaceContentStage subn
    rw [hdecomp]
    simp only [hmap]
    simp [List.append_assoc]

/-- Witness for C4: file `"xay"`, needle `"a"` (one occurrence), token-free
replacement `"ZZ"`: the call succeeds with `"xZZy"` and count 1. -/
theorem replace_literal_single_occurrence_witness :
    replaceContentTool (fun p => litEngine p) .literal "a".data "ZZ".data false
        ("x".data ++ "a".data ++ "y".data) =
      (.ok ("x".data ++ "ZZ".data ++ "y".data, 1), "x".data ++ "ZZ".data ++ "y".data) :=
  replace_literal_single_occurrence (fun p => litEngine p) "a".data "ZZ".data
    "x".data "y".data (by decide) (by decide)

/-- Counterexample to C4 as stated: file `"ab"` contains needle `"a"`
exactly once, but with replacement `"$!1"` the literal-mode call does not
succeed with `"$!1b"`: the backreference token is expanded against the
escaped pattern (which has no capture groups) and the call raises
`IndexError: no such group`, leaving the file unchanged. -/
theorem replace_literal_single_occurrence_counterexample :
    countOccs "a".data "ab".data = 1 ∧
    replaceContentTool (fun p => litEngine p) .literal "a".data "$!1".data false "ab".data =
      (.error .NoSuchGroup, "ab".data) := by decide

theorem endsWithNL_normalize (c : Str) : endsWithNL (normalizeTrailing c) = true := by
  unfold normalizeTrailing
  by_cases h : endsWithNL c = true
  · rw [if_pos h]
    exact h
  · rw [if_neg h]
    unfold endsWithNL
    rw [List.reverse_append]
    rfl

theorem normalizeTrailing_of_endsWithNL {c : Str} (h : endsWithNL c = true) :
    normalizeTrailing c = c := by
  unfold normalizeTrailing
  rw [if_pos h]

/-- C5: `ReplaceLinesTool.apply` is exactly `DeleteLinesTool.apply` followed
by `InsertAtLineTool.apply` on the content normalized to end with a trailing
newline; when the delete step fails, the insert step is never attempted and
the delete failure is surfaced to the caller unchanged. The external
`code_editor.delete_lines` / `insert_at_line` primitives (not part of the
sources) are universally quantified. -/
theorem replace_lines_composition {ε : Type} (del0 : Str → Nat → Nat → Except ε Str)
    (ins0 : Str → Nat → Str → Except ε Str) (fs : Str) (startLine endLine : Nat)
    (content : Str) :
    (replaceLinesToolP del0 ins0 fs startLine endLine content =
      match deleteLinesToolP del0 fs startLine endLine with
      | .error err => .error err
      | .ok (_, fs1) => insertAtLineToolP ins0 fs1 startLine (normalizeTrailing content)) ∧
    (∀ err, deleteLinesToolP del0 fs startLine endLine = .error err →
      replaceLinesToolP del0 ins0 fs startLine endLine content = .error err) := by
  constructor
  · unfold replaceLinesToolP deleteLinesToolP insertAtLineToolP
    cases hdel : del0 fs startLine endLine with
    | error err => rfl
    | ok fs1 =>
      simp only []
      rw [if_neg (by simp)]
      rw [normalizeTrailing_of_endsWithNL (endsWithNL_normalize content)]
      cases hins : ins0 fs1 startLine (normalizeTrailing content) with
      | error err => rfl
      | ok fs2 => rfl
  · intro err hdel
    unfold replaceLinesToolP
    rw [hdel]

/-- Witness for C5: with a delete primitive that always fails, the composed
replace-lines tool surfaces exactly that failure; with primitives that
succeed, the composition equation is exercised on a concrete file. -/
theorem replace_lines_composition_witness :
    replaceLinesToolP (fun _ _ _ => (Except.error () : Except Unit Str))
        (fun fs _ c => Except.ok (c ++ fs)) "x".data 0 1 "c".data = .error () ∧
    replaceLinesToolP (fun fs _ _ => (Except.ok fs : Except Unit Str))
        (fun fs _ c => Except.ok (c ++ fs)) "x".data 0 1 "c".data =
      (match deleteLinesToolP (fun fs _ _ => (Except.ok fs : Except Unit Str)) "x".data 0 1 with
       | .error err => .error err
       | .ok (_, fs1) =>
         insertAtLineToolP (fun fs _ c => Except.ok (c ++ fs)) fs1 0
           (normalizeTrailing "c".data)) := by
  constructor
  · exact (replace_lines_composition (fun _ _ _ => (Except.error () : Except Unit Str))
      (fun fs _ c => Except.ok (c ++ fs)) "x".data 0 1 "c".data).2 () rfl
  · exact (replace_lines_composition (fun fs _ _ => (Except.ok fs : Except Unit Str))
      (fun fs _ c => Except.ok (c ++ fs)) "x".data 0 1 "c".data).1

/-- Does the (non-empty) trailing newline run of `s` have length exactly 1? -/
def endsWithSingleNL (s : Str) : Bool :=
  match s.reverse with
  | '\n' :: '\n' :: _ => false
  | '\n' :: _ => true
  | _ => false

/-- C6 (amended): `InsertAtLineTool.apply` inserts the content immediately
before the given zero-indexed line after normalizing it to end with a
trailing newline: a newline is appended only when the content does not
already end with one, so the inserted text always ends with at least one
newline, and content already ending with a newline is inserted unchanged
(content ending in several newlines is not reduced to a single one, see the
counterexample). -/
theorem insert_at_line_normalization (fs : Str) (line : Nat) (content : Str) :
    (insertAtLineToolP
        (fun fs0 l c => (Except.ok (insertAtLineModel fs0 l c) : Except Unit Str))
        fs line content =
      .ok (SUCCESS_RESULT,
        ((splitLinesKeep fs).take line).flatten ++ normalizeTrailing content ++
          ((splitLinesKeep fs).drop line).flatten)) ∧
    endsWithNL (normalizeTrailing content) = true ∧
    (endsWithNL content = true → normalizeTrailing content = content) := by
  refine ⟨?_, endsWithNL_normalize content, fun h => normalizeTrailing_of_endsWithNL h⟩
  unfold insertAtLineToolP insertAtLineModel
  rfl

/-- Witness for C6: inserting `"b\n"` (which already ends with a newline)
before line 1 of `"x\ny\n"` yields `"x\nb\ny\n"` with the content unchanged
by normalization. -/
theorem insert_at_line_normalization_witness :
    insertAtLineToolP
        (fun fs0 l c => (Except.ok (insertAtLineModel fs0 l c) : Except Unit Str))
        "x\ny\n".data 1 "b\n".data =
      .ok (SUCCESS_RESULT,
        (("x\ny\n".data |> splitLinesKeep).take 1).flatten ++ normalizeTrailing "b\n".data ++
          (("x\ny\n".data |> splitLinesKeep).drop 1).flatten) ∧
    normalizeTrailing "b\n".data = "b\n".data := by
  constructor
  · exact (insert_at_line_normalization "x\ny\n".data 1 "b\n".data).1
  · exact (insert_at_line_normalization "x\ny\n".data 1 "b\n".data).2.2 (by decide)

/-- Counterexample to C6 as stated: the input `"a\n\n"` already ends with a
newline, so normalization leaves it untouched and the inserted text ends
with two newlines, not with a single trailing newline. -/
theorem insert_at_line_normalization_counterexample :
    normalizeTrailing "a\n\n".data = "a\n\n".data ∧
    endsWithSingleNL (normalizeTrailing "a\n\n".data) = false := by decide

theorem dictGet_pop_self (d : SymDict) (k : String) : dictGet (dictPop d k) k = none := by
  induction d with
  | nil => rfl
  | cons e rest ih =>
    obtain ⟨k1, v⟩ := e
    unfold dictPop
    by_cases h : k1 = k
    · rw [if_pos h]
      exact ih
    · rw [if_neg h]
      simp only [dictGet]
      rw [if_neg h]
      exact ih

theorem dictGet_pop_ne (d : SymDict) {k k1 : String} (h : k1 ≠ k) :
    dictGet (dictPop d k) k1 = dictGet d k1 := by
  induction d with
  | nil => rfl
  | cons e rest ih =>
    obtain ⟨k2, v⟩ := e
    unfold dictPop
    by_cases h2 : k2 = k
    · rw [if_pos h2, ih]
      simp only [dictGet]
      rw [if_neg (by rw [h2]; exact fun he => h he.symm)]
    · rw [if_neg h2]
      simp only [dictGet]
      by_cases h3 : k2 = k1
      · rw [if_pos h3, if_pos h3]
      · rw [if_neg h3, if_neg h3]
        exact ih

theorem dictGet_set_self (d : SymDict) (k : String) (v : JVal) :
    dictGet (dictSet d k v) k = some v := by
  induction d with
  | nil => simp [dictSet, dictGet]
  | cons e rest ih =>
    obtain ⟨k1, w⟩ := e
    unfold dictSet
    by_cases h : k1 = k
    · rw [if_pos h]
      simp [dictGet]
    · rw [if_neg h]
      simp only [dictGet]
      rw [if_neg h]
      exact ih

theorem dictGet_set_ne (d : SymDict) {k k1 : String} (v : JVal) (h : k1 ≠ k) :
    dictGet (dictSet d k v) k1 = dictGet d k1 := by
  induction d with
  | nil =>
    simp only [dictSet, dictGet]
    rw [if_neg (fun he => h he.symm)]
  | cons e rest ih =>
    obtain ⟨k2, w⟩ := e
    unfold dictSet
    by_cases h2 : k2 = k
    · rw [if_pos h2]
      simp only [dictGet]
      rw [if_neg (fun he => h he.symm), if_neg (by rw [h2]; exact fun he => h he.symm)]
    · rw [if_neg h2]
      simp only [dictGet]
      by_cases h3 : k2 = k1
      · rw [if_pos h3, if_pos h3]
      · rw [if_neg h3, if_neg h3]
        exact ih

theorem mapExcept_mem {α β ε : Type} (f : α → Except ε β) :
    ∀ (xs : List α) (ys : List β), mapExcept f xs = .ok ys →
      ∀ y ∈ ys, ∃ x ∈ xs, f x = .ok y := by
  intro xs
  induction xs with
  | nil =>
    intro ys h y hy
    cases h
    simp at hy
  | cons x xs ih =>
    intro ys h y hy
    unfold mapExcept at h
    cases hfx : f x with
    | error e => rw [hfx] at h; cases h
    | ok y0 =>
      rw [hfx] at h
      cases hrest : mapExcept f xs with
      | error e => rw [hrest] at h; cases h
      | ok ys0 =>
        rw [hrest] at h
        cases h
        rcases List.mem_cons.mp hy with hy0 | hymem
        · exact ⟨x, List.mem_cons_self x xs, by rw [hfx, hy0]⟩
        · obtain ⟨x1, hx1, hfx1⟩ := ih ys0 hrest y hymem
          exact ⟨x1, List.mem_cons_of_mem x hx1, hfx1⟩

theorem getLocRelPath_some {d : SymDict} {loc : List (String × JVal)} {v : JVal}
    (hl : dictGet d "location" = some (.dict loc))
    (hv : dictGet loc "relative_path" = some v) (hvn : v ≠ .null) :
    getLocRelPath d = .ok (some v) := by
  unfold getLocRelPath
  rw [hl]
  show Except.ok (match dictGet loc "relative_path" with
    | some JVal.null => none
    | x => x) = .ok (some v)
  rw [hv]
  cases v with
  | null => exact absurd rfl hvn
  | str s => rfl
  | num n => rfl
  | boolean b => rfl
  | dict entries => rfl
  | arr elems => rfl

/-- C7: every descriptor surviving sanitization carries neither a `name` nor
a `location` key, and a present `location.relative_path` (other than `None`)
is hoisted to the top-level `relative_path`; and every descriptor returned by
`FindSymbolTool.apply` is the sanitization of one of the `to_dict` outputs. -/
theorem symbol_dict_sanitization (d d' : SymDict) (ds out : List SymDict) :
    (sanitizeSymbolDict d = .ok d' →
      dictGet d' "name" = none ∧ dictGet d' "location" = none ∧
      (∀ loc v, dictGet d "location" = some (.dict loc) →
        dictGet loc "relative_path" = some v → v ≠ .null →
        dictGet d' "relative_path" = some v)) ∧
    (findSymbolSanitize ds = .ok out →
      ∀ x ∈ out, ∃ y ∈ ds, sanitizeSymbolDict y = .ok x) := by
  constructor
  · intro h
    unfold sanitizeSymbolDict at h
    cases hg : getLocRelPath d with
    | error e => rw [hg] at h; cases h
    | ok rp =>
      rw [hg] at h
      cases rp with
      | none =>
        simp only [] at h
        cases hn : dictGet (dictPop d "location") "name" with
        | none => rw [hn] at h; cases h
        | some nv =>
          rw [hn] at h
          cases h
          refine ⟨dictGet_pop_self _ _, ?_, ?_⟩
          · rw [dictGet_pop_ne _ (by decide : "location" ≠ "name")]
            exact dictGet_pop_self _ _
          · intro loc v hl hv hvn
            have hv0 := getLocRelPath_some hl hv hvn
            rw [hg] at hv0
            simp at hv0
      | some v0 =>
        simp only [] at h
        cases hn : dictGet (dictPop (dictSet d "relative_path" v0) "location") "name" with
        | none => rw [hn] at h; cases h
        | some nv =>
          rw [hn] at h
          cases h
          refine ⟨dictGet_pop_self _ _, ?_, ?_⟩
          · rw [dictGet_pop_ne _ (by decide : "location" ≠ "name")]
            exact dictGet_pop_self _ _
          · intro loc v hl hv hvn
            have hv0 := getLocRelPath_some hl hv hvn
            rw [hg] at hv0
            simp only [Except.ok.injEq, Option.some.injEq] at hv0
            subst hv0
            rw [dictGet_pop_ne _ (by decide : "relative_path" ≠ "name")]
            rw [dictGet_pop_ne _ (by decide : "relative_path" ≠ "location")]
            exact dictGet_set_self d "relative_path" _
  · intro h x hx
    exact mapExcept_mem sanitizeSymbolDict ds out h x hx

/-- Witness for C7: a concrete descriptor with name, kind and a location
carrying a relative path sanitizes to a dict with no `name`, no `location`
and the hoisted `relative_path`. -/
theorem symbol_dict_sanitization_witness :
    dictGet [("kind", JVal.num 12), ("relative_path", JVal.str "a.py".data)] "name" = none ∧
    dictGet [("kind", JVal.num 12), ("relative_path", JVal.str "a.py".data)] "location" = none ∧
    dictGet [("kind", JVal.num 12), ("relative_path", JVal.str "a.py".data)] "relative_path" =
      some (JVal.str "a.py".data) := by
  have h := (symbol_dict_sanitization
    [("name", JVal.str "f".data), ("kind", JVal.num 12),
     ("location", JVal.dict [("relative_path", JVal.str "a.py".data), ("line", JVal.num 3)])]
    [("kind", JVal.num 12), ("relative_path", JVal.str "a.py".data)] [] []).1 rfl
  exact ⟨h.1, h.2.1,
    h.2.2 [("relative_path", JVal.str "a.py".data), ("line", JVal.num 3)]
      (JVal.str "a.py".data) rfl rfl (by intro hc; cases hc)⟩

/-- C8: the overview tool fails `NotFound` when the path does not exist,
`InvalidTarget` when the path is a directory, and succeeds with an empty
list (not an error) on an existing file with zero top-level symbols. -/
theorem overview_error_contract (fs : FSModel) (retr : String → Nat → List SymDict)
    (path : String) (depth : Nat) :
    (fs.pathExists path = false →
      getSymbolsOverviewTool fs retr path depth = .error .NotFound) ∧
    (fs.pathExists path = true → fs.isDir path = true →
      getSymbolsOverviewTool fs retr path depth = .error .InvalidTarget) ∧
    (fs.pathExists path = true → fs.isDir path = false → retr path depth = [] →
      getSymbolsOverviewTool fs retr path depth = .ok []) := by
  refine ⟨fun h => ?_, fun h1 h2 => ?_, fun h1 h2 h3 => ?_⟩ <;>
    simp [getSymbolsOverviewTool, *]

/-- Witness for C8: concrete file-system models exercise all three branches:
existing regular file with zero symbols, absent path, directory path. -/
theorem overview_error_contract_witness :
    getSymbolsOverviewTool ⟨fun _ => true, fun _ => false⟩ (fun _ _ => []) "f.py" 0 =
      .ok [] ∧
    getSymbolsOverviewTool ⟨fun _ => false, fun _ => false⟩ (fun _ _ => []) "f.py" 0 =
      .error .NotFound ∧
    getSymbolsOverviewTool ⟨fun _ => true, fun _ => true⟩ (fun _ _ => []) "f.py" 0 =
      .error .InvalidTarget :=
  ⟨(overview_error_contract ⟨fun _ => true, fun _ => false⟩ (fun _ _ => []) "f.py" 0).2.2
      rfl rfl rfl,
   (overview_error_contract ⟨fun _ => false, fun _ => false⟩ (fun _ _ => []) "f.py" 0).1 rfl,
   (overview_error_contract ⟨fun _ => true, fun _ => true⟩ (fun _ _ => []) "f.py" 0).2.1
      rfl rfl⟩

/-- C9: every reference descriptor returned by
`FindReferencingSymbolsTool.apply` (which never requests bodies) carries a
context snippet obtained from the project's raw-text accessor with exactly
one line of context before and one after the reference line; with bodies
requested, the per-reference processing attaches no snippet. -/
theorem reference_context_snippet (acc : Str → Nat → Nat → Nat → Str)
    (refs : List SymbolRef) (out : List SymDict) (ref : SymbolRef) :
    (findReferencingSymbolsTool acc refs = .ok out →
      ∀ d ∈ out, ∃ r ∈ refs, ∃ rp, r.relPath = some rp ∧
        dictGet d "content_around_reference" = some (.str (acc rp r.line 1 1))) ∧
    (processReference acc true ref = sanitizeSymbolDict ref.dict) := by
  constructor
  · intro h d hd
    obtain ⟨r, hr, hpr⟩ := mapExcept_mem (processReference acc false) refs out h d hd
    refine ⟨r, hr, ?_⟩
    unfold processReference at hpr
    cases hs : sanitizeSymbolDict r.dict with
    | error e => rw [hs] at hpr; cases hpr
    | ok d1 =>
      rw [hs] at hpr
      simp only [Bool.false_eq_true, if_false] at hpr
      cases hrp : r.relPath with
      | none => rw [hrp] at hpr; cases hpr
      | some rp =>
        rw [hrp] at hpr
        cases hpr
        exact ⟨rp, rfl, dictGet_set_self _ _ _⟩
  · cases hs : sanitizeSymbolDict ref.dict <;> simp [processReference, hs]

/-- Witness for C9: a single reference at line 7 of `a.py` with a constant
raw-text accessor yields a descriptor whose snippet is the accessor's
output; with bodies requested, processing is bare sanitization. -/
theorem reference_context_snippet_witness :
    dictGet [("content_around_reference", JVal.str "ctx".data)] "content_around_reference" =
      some (JVal.str "ctx".data) ∧
    processReference (fun _ _ _ _ => "ctx".data) true
        ⟨[("name", JVal.str "f".data)], some "a.py".data, 7⟩ =
      sanitizeSymbolDict [("name", JVal.str "f".data)] := by
  constructor
  · have h := (reference_context_snippet (fun _ _ _ _ => "ctx".data)
      [⟨[("name", JVal.str "f".data)], some "a.py".data, 7⟩]
      [[("content_around_reference", JVal.str "ctx".data)]]
      ⟨[("name", JVal.str "f".data)], some "a.py".data, 7⟩).1 rfl
      [("content_around_reference", JVal.str "ctx".data)] (by simp)
    obtain ⟨r, hr, rp, hrp, hlook⟩ := h
    exact hlook
  · exact (reference_context_snippet (fun _ _ _ _ => "ctx".data) []
      [] ⟨[("name", JVal.str "f".data)], some "a.py".data, 7⟩).2

/-- Does the `location` value, when present, have a mapping shape (so that
`.get("relative_path")` does not raise)? -/
def locOkB (d : SymDict) : Bool :=
  match dictGet d "location" with
  | none => true
  | some (JVal.dict _) => true
  | some _ => false

/-- C10 (amended): provided the `location` value, when present, is a mapping,
the sanitizer raises `KeyError` exactly when the input lacks a `name` key;
an absent `location` key is tolerated and yields an output whose
`relative_path` entry is unchanged from the input (no hoisted field is
added). A present non-mapping `location` raises `AttributeError` even when
`name` is present, see the counterexample. (The function is modelled as a
pure function; the Python code operates on a shallow copy of its argument.) -/
theorem sanitize_error_behavior (d : SymDict) :
    (locOkB d = true → dictGet d "name" = none →
      sanitizeSymbolDict d = .error .KeyError) ∧
    (locOkB d = true → ∀ v, dictGet d "name" = some v →
      exIsOk (sanitizeSymbolDict d) = true) ∧
    (dictGet d "location" = none → ∀ d', sanitizeSymbolDict d = .ok d' →
      dictGet d' "relative_path" = dictGet d "relative_path") := by
  have hname_preserved : ∀ rp : Option JVal,
      dictGet (dictPop (match rp with
        | some v => dictSet d "relative_path" v
        | none => d) "location") "name" = dictGet d "name" := by
    intro rp
    rw [dictGet_pop_ne _ (by decide : "name" ≠ "location")]
    cases rp with
    | none => rfl
    | some v => exact dictGet_set_ne d v (by decide : "name" ≠ "relative_path")
  refine ⟨?_, ?_, ?_⟩
  · intro hloc hname
    unfold sanitizeSymbolDict
    unfold locOkB at hloc
    cases hl : dictGet d "location" with
    | none =>
      rw [show getLocRelPath d = .ok none from by unfold getLocRelPath; rw [hl]]
      simp only []
      rw [show dictGet (dictPop d "location") "name" = dictGet d "name" from
        dictGet_pop_ne _ (by decide : "name" ≠ "location"), hname]
    | some lv =>
      rw [hl] at hloc
      cases lv with
      | dict loc =>
        rw [show getLocRelPath d = .ok (match dictGet loc "relative_path" with
          | some JVal.null => none
          | x => x) from by unfold getLocRelPath; rw [hl]]
        simp only []
        cases hrp : (match dictGet loc "relative_path" with
          | some JVal.null => none
          | x => x : Option JVal) with
        | none =>
          rw [show dictGet (dictPop d "location") "name" = dictGet d "name" from
            dictGet_pop_ne _ (by decide : "name" ≠ "location"), hname]
        | some v =>
          rw [show dictGet (dictPop (dictSet d "relative_path" v) "location") "name" =
            dictGet d "name" from hname_preserved (some v), hname]
      | null => cases hloc
      | str s => cases hloc
      | num n => cases hloc
      | boolean b => cases hloc
      | arr elems => cases hloc
  · intro hloc v hname
    unfold sanitizeSymbolDict
    unfold locOkB at hloc
    cases hl : dictGet d "location" with
    | none =>
      rw [show getLocRelPath d = .ok none from by unfold getLocRelPath; rw [hl]]
      simp only []
      rw [show dictGet (dictPop d "location") "name" = dictGet d "name" from
        dictGet_pop_ne _ (by decide : "name" ≠ "location"), hname]
      rfl
    | some lv =>
      rw [hl] at hloc
      cases lv with
      | dict loc =>
        rw [show getLocRelPath d = .ok (match dictGet loc "relative_path" with
          | some JVal.null => none
          | x => x) from by unfold getLocRelPath; rw [hl]]
        simp only []
        cases hrp : (match dictGet loc "relative_path" with
          | some JVal.null => none
          | x => x : Option JVal) with
        | none =>
          rw [show dictGet (dictPop d "location") "name" = dictGet d "name" from
            dictGet_pop_ne _ (by decide : "name" ≠ "location"), hname]
          rfl
        | some v2 =>
          rw [show dictGet (dictPop (dictSet d "relative_path" v2) "location") "name" =
            dictGet d "name" from hname_preserved (some v2), hname]
          rfl
      | null => cases hloc
      | str s => cases hloc
      | num n => cases hloc
      | boolean b => cases hloc
      | arr elems => cases hloc
  · intro hl d' h
    unfold sanitizeSymbolDict at h
    rw [show getLocRelPath d = .ok none from by unfold getLocRelPath; rw [hl]] at h
    simp only [] at h
    cases hn : dictGet (dictPop d "location") "name" with
    | none => rw [hn] at h; cases h
    | some nv =>
      rw [hn] at h
      cases h
      rw [dictGet_pop_ne _ (by decide : "relative_path" ≠ "name")]
      exact dictGet_pop_ne _ (by decide : "relative_path" ≠ "location")

/-- Witness for C10: a dict without a `name` key makes the sanitizer raise
`KeyError`; a dict with `name` and no `location` sanitizes successfully with
its `relative_path` lookup unchanged. -/
theorem sanitize_error_behavior_witness :
    sanitizeSymbolDict [("kind", JVal.num 1)] = .error .KeyError ∧
    dictGet [("kind", JVal.num 1)] "relative_path" =
      dictGet [("name", JVal.str "f".data), ("kind", JVal.num 1)] "relative_path" := by
  constructor
  · exact (sanitize_error_behavior [("kind", JVal.num 1)]).1 rfl rfl
  · exact ((sanitize_error_behavior [("name", JVal.str "f".data), ("kind", JVal.num 1)]).2.2
      rfl [("kind", JVal.num 1)] rfl).symm ▸ rfl

/-- Counterexample to C10 as stated: the input has a `name` key, yet the
sanitizer raises (`AttributeError`, from `.get` on the non-mapping `None`
location) — so it does not raise exactly when `name` is absent. -/
theorem sanitize_error_behavior_counterexample :
    dictGet [("name", JVal.str "f".data), ("location", JVal.null)] "name" =
      some (JVal.str "f".data) ∧
    sanitizeSymbolDict [("name", JVal.str "f".data), ("location", JVal.null)] =
      .error .AttributeError := by
  exact ⟨rfl, rfl⟩

theorem exmap_map {ε α β γ : Type} (f : β → γ) (g0 : α → β) (x : Except ε α) :
    (x.map g0).map f = x.map (fun a => f (g0 a)) := by
  cases x <;> rfl

/-- The rendering of a template presented as a leading literal chunk
followed by backreference tokens, each with a trailing literal chunk:
`renderItems [(ds₁, k₁), (ds₂, k₂)] = "$!" ++ ds₁ ++ k₁ ++ "$!" ++ ds₂ ++ k₂`. -/
def renderItems : List (Str × Str) → Str
  | [] => []
  | (ds, chunk) :: rest => '$' :: '!' :: (ds ++ chunk ++ renderItems rest)

def renderTmpl (lead : Str) (items : List (Str × Str)) : Str :=
  lead ++ renderItems items

def headNotDigit : Str → Bool
  | [] => true
  | c :: _ => !c.isDigit

/-- Well-formedness of the decomposition: every token has a non-empty
all-digit run, no literal chunk contains a token of its own, and no chunk
begins with a digit (so each token's digit run is maximal). -/
def wfItems (items : List (Str × Str)) : Bool :=
  items.all (fun it =>
    !it.1.isEmpty && it.1.all Char.isDigit && !hasTok it.2 && headNotDigit it.2)

def wfTmpl (lead : Str) (items : List (Str × Str)) : Bool :=
  !hasTok lead && wfItems items

/-- The value the claim assigns to a token `$!ds`: the text of the capture
group when it participated, the literal token text when it did not. -/
def tokenExpansionG (g : Nat → Except ReplaceErr (Option Str)) (ds : Str) : Str :=
  match g (digitsToNat ds) with
  | .ok (some v) => v
  | .ok none => '$' :: '!' :: ds
  | .error _ => []

/-- The claim's expected expansion of the token/chunk items. -/
def expandedItemsG (g : Nat → Except ReplaceErr (Option Str)) :
    List (Str × Str) → Str
  | [] => []
  | (ds, chunk) :: rest => tokenExpansionG g ds ++ chunk ++ expandedItemsG g rest

theorem tokValue_of_ok {g : Nat → Except ReplaceErr (Option Str)} {ds : Str}
    (h : exIsOk (g (digitsToNat ds)) = true) :
    tokValue g ds = .ok (tokenExpansionG g ds) := by
  unfold tokValue tokenExpansionG
  cases hh : g (digitsToNat ds) with
  | error e => rw [hh] at h; cases h
  | ok v => cases v <;> rfl

theorem expandScan_boundary (g : Nat → Except ReplaceErr (Option Str))
    (st : ScanState) (hst : st = .normal ∨ st = .dollar ∨ st = .bang)
    (rest : Str) (hrest : rest = [] ∨ ∃ r, rest = '$' :: r) :
    expandScan g st rest = (expandScan g .normal rest).map (fun t => stRender st ++ t) := by
  rcases hst with rfl | rfl | rfl
  · cases expandScan g .normal rest <;> rfl
  · rcases hrest with rfl | ⟨r, rfl⟩
    · rfl
    · show (expandScan g .dollar r).map (fun t => '$' :: t) =
        (expandScan g .dollar r).map (fun t => '$' :: t)
      rfl
  · rcases hrest with rfl | ⟨r, rfl⟩
    · rfl
    · show (expandScan g .dollar r).map (fun t => '$' :: '!' :: t) =
        (expandScan g .dollar r).map (fun t => '$' :: '!' :: t)
      rfl

theorem expandScan_chunk (g : Nat → Except ReplaceErr (Option Str)) :
    ∀ (chunk : Str) (st : ScanState) (rest : Str),
      (st = .normal ∨ st = .dollar ∨ st = .bang) →
      hasTok (stRender st ++ chunk) = false →
      (rest = [] ∨ ∃ r, rest = '$' :: r) →
      expandScan g st (chunk ++ rest) =
        (expandScan g .normal rest).map (fun t => stRender st ++ chunk ++ t) := by
  intro chunk
  induction chunk with
  | nil =>
    intro st rest hst h hrest
    have hb := expandScan_boundary g st hst rest hrest
    show expandScan g st rest = (expandScan g .normal rest).map (fun t => stRender st ++ [] ++ t)
    rw [hb]
    cases expandScan g .normal rest <;> simp
  | cons c chunk ih =>
    intro st rest hst h hrest
    rcases hst with rfl | rfl | rfl
    · by_cases hc : c = '$'
      · subst hc
        show expandScan g .dollar (chunk ++ rest) =
          (expandScan g .normal rest).map (fun t => stRender .normal ++ '$' :: chunk ++ t)
        rw [ih .dollar rest (Or.inr (Or.inl rfl)) h hrest]
        cases expandScan g .normal rest <;> rfl
      · show (if c = '$' then expandScan g .dollar (chunk ++ rest)
            else (expandScan g .normal (chunk ++ rest)).map (fun t => c :: t)) =
          (expandScan g .normal rest).map (fun t => stRender .normal ++ c :: chunk ++ t)
        rw [if_neg hc, ih .normal rest (Or.inl rfl) (hasTok_tail h) hrest, exmap_map]
        cases expandScan g .normal rest <;> rfl
    · by_cases hb : c = '!'
      · subst hb
        show expandScan g .bang (chunk ++ rest) =
          (expandScan g .normal rest).map (fun t => stRender .dollar ++ '!' :: chunk ++ t)
        rw [ih .bang rest (Or.inr (Or.inr rfl)) h hrest]
        cases expandScan g .normal rest <;> rfl
      · by_cases hc : c = '$'
        · subst hc
          show (if ('$' : Char) = '!' then expandScan g .bang (chunk ++ rest)
              else if ('$' : Char) = '$' then
                (expandScan g .dollar (chunk ++ rest)).map (fun t => '$' :: t)
              else (expandScan g .normal (chunk ++ rest)).map (fun t => '$' :: '$' :: t)) =
            (expandScan g .normal rest).map (fun t => stRender .dollar ++ '$' :: chunk ++ t)
          rw [if_neg (by decide : ¬ ('$' : Char) = '!'), if_pos rfl]
          rw [ih .dollar rest (Or.inr (Or.inl rfl))
            (hasTok_tail (show hasTok ('$' :: '$' :: chunk) = false from h)) hrest, exmap_map]
          cases expandScan g .normal rest <;> rfl
        · show (if c = '!' then expandScan g .bang (chunk ++ rest)
              else if c = '$' then
                (expandScan g .dollar (chunk ++ rest)).map (fun t => '$' :: t)
              else (expandScan g .normal (chunk ++ rest)).map (fun t => '$' :: c :: t)) =
            (expandScan g .normal rest).map (fun t => stRender .dollar ++ c :: chunk ++ t)
          rw [if_neg hb, if_neg hc]
          rw [ih .normal rest (Or.inl rfl)
            (hasTok_tail (hasTok_tail (show hasTok ('$' :: c :: chunk) = false from h))) hrest,
            exmap_map]
          cases expandScan g .normal rest <;> rfl
    · by_cases hd : c.isDigit
      · exfalso
        have : hasTok ('$' :: '!' :: c :: chunk) = true := by simp [hasTok, hd]
        rw [show stRender ScanState.bang ++ c :: chunk = '$' :: '!' :: c :: chunk from rfl] at h
        rw [this] at h
        cases h
      · by_cases hc : c = '$'
        · subst hc
          show (if ('$' : Char).isDigit then expandScan g (.tok ['$']) (chunk ++ rest)
              else if ('$' : Char) = '$' then
                (expandScan g .dollar (chunk ++ rest)).map (fun t => '$' :: '!' :: t)
              else (expandScan g .normal (chunk ++ rest)).map
                (fun t => '$' :: '!' :: '$' :: t)) =
            (expandScan g .normal rest).map (fun t => stRender .bang ++ '$' :: chunk ++ t)
          rw [if_neg (by decide : ¬ ('$' : Char).isDigit = true), if_pos rfl]
          rw [ih .dollar rest (Or.inr (Or.inl rfl))
            (hasTok_tail (hasTok_tail
              (show hasTok ('$' :: '!' :: '$' :: chunk) = false from h))) hrest, exmap_map]
          cases expandScan g .normal rest <;> rfl
        · show (if c.isDigit then expandScan g (.tok [c]) (chunk ++ rest)
              else if c = '$' then
                (expandScan g .dollar (chunk ++ rest)).map (fun t => '$' :: '!' :: t)
              else (expandScan g .normal (chunk ++ rest)).map
                (fun t => '$' :: '!' :: c :: t)) =
            (expandScan g .normal rest).map (fun t => stRender .bang ++ c :: chunk ++ t)
          rw [if_neg hd, if_neg hc]
          rw [ih .normal rest (Or.inl rfl)
            (hasTok_tail (hasTok_tail (hasTok_tail
              (show hasTok ('$' :: '!' :: c :: chunk) = false from h)))) hrest, exmap_map]
          cases expandScan g .normal rest <;> rfl

theorem expandScan_tok_digits (g : Nat → Except ReplaceErr (Option Str)) :
    ∀ (ds2 acc tail0 : Str), ds2.all Char.isDigit = true →
      expandScan g (.tok acc) (ds2 ++ tail0) = expandScan g (.tok (acc ++ ds2)) tail0 := by
  intro ds2
  induction ds2 with
  | nil =>
    intro acc tail0 _
    rw [List.append_nil]
    rfl
  | cons d ds2 ih =>
    intro acc tail0 hall
    simp only [List.all_cons, Bool.and_eq_true] at hall
    show (if d.isDigit then expandScan g (.tok (acc ++ [d])) (ds2 ++ tail0)
        else if d = '$' then
          match tokValue g acc with
          | .error e => .error e
          | .ok v => (expandScan g .dollar (ds2 ++ tail0)).map (fun t => v ++ t)
        else
          match tokValue g acc with
          | .error e => .error e
          | .ok v => (expandScan g .normal (ds2 ++ tail0)).map (fun t => v ++ d :: t)) =
      expandScan g (.tok (acc ++ d :: ds2)) tail0
    rw [if_pos hall.1, ih (acc ++ [d]) tail0 hall.2]
    have : acc ++ [d] ++ ds2 = acc ++ d :: ds2 := by simp
    rw [this]

theorem expandScan_tok_exit (g : Nat → Except ReplaceErr (Option Str))
    (ds chunk rest : Str) (hchunk : hasTok chunk = false)
    (hhead : headNotDigit chunk = true) (hrest : rest = [] ∨ ∃ r, rest = '$' :: r) :
    expandScan g (.tok ds) (chunk ++ rest) =
      match tokValue g ds with
      | .error e => .error e
      | .ok v => (expandScan g .normal rest).map (fun t => v ++ chunk ++ t) := by
  cases chunk with
  | nil =>
    rcases hrest with rfl | ⟨r, rfl⟩
    · show tokValue g ds = match tokValue g ds with
        | .error e => .error e
        | .ok v => (expandScan g .normal []).map (fun t => v ++ [] ++ t)
      cases htv : tokValue g ds with
      | error e => rfl
      | ok v =>
        show Except.ok v = (Except.ok ([] : Str)).map (fun t => v ++ [] ++ t)
        simp [Except.map]
    · show (if ('$' : Char).isDigit then expandScan g (.tok (ds ++ ['$'])) r
          else if ('$' : Char) = '$' then
            match tokValue g ds with
            | .error e => .error e
            | .ok v => (expandScan g .dollar r).map (fun t => v ++ t)
          else
            match tokValue g ds with
            | .error e => .error e
            | .ok v => (expandScan g .normal r).map (fun t => v ++ '$' :: t)) =
        match tokValue g ds with
        | .error e => .error e
        | .ok v => (expandScan g .normal ('$' :: r)).map (fun t => v ++ [] ++ t)
      rw [if_neg (by decide : ¬ ('$' : Char).isDigit = true), if_pos rfl]
      cases htv : tokValue g ds with
      | error e => rfl
      | ok v =>
        show (expandScan g .dollar r).map (fun t => v ++ t) =
          (expandScan g .dollar r).map (fun t => v ++ [] ++ t)
        cases expandScan g .dollar r <;> simp
  | cons c chunk =>
    have hd : c.isDigit = false := by
      simp only [headNotDigit, Bool.not_eq_true'] at hhead
      exact hhead
    by_cases hc : c = '$'
    · subst hc
      show (if ('$' : Char).isDigit then expandScan g (.tok (ds ++ ['$'])) (chunk ++ rest)
          else if ('$' : Char) = '$' then
            match tokValue g ds with
            | .error e => .error e
            | .ok v => (expandScan g .dollar (chunk ++ rest)).map (fun t => v ++ t)
          else
            match tokValue g ds with
            | .error e => .error e
            | .ok v => (expandScan g .normal (chunk ++ rest)).map (fun t => v ++ '$' :: t)) =
        match tokValue g ds with
        | .error e => .error e
        | .ok v => (expandScan g .normal rest).map (fun t => v ++ '$' :: chunk ++ t)
      rw [if_neg (by decide : ¬ ('$' : Char).isDigit = true), if_pos rfl]
      rw [expandScan_chunk g chunk .dollar rest (Or.inr (Or.inl rfl))
        (show hasTok ('$' :: chunk) = false from hchunk) hrest]
      cases htv : tokValue g ds with
      | error e => rfl
      | ok v =>
        show (Except.map (fun t => v ++ t)
            (Except.map (fun t => stRender ScanState.dollar ++ chunk ++ t)
              (expandScan g ScanState.normal rest))) =
          Except.map (fun t => v ++ '$' :: chunk ++ t) (expandScan g ScanState.normal rest)
        rw [exmap_map]
        cases expandScan g .normal rest <;> simp [Except.map, stRender]
    · show (if c.isDigit then expandScan g (.tok (ds ++ [c])) (chunk ++ rest)
          else if c = '$' then
            match tokValue g ds with
            | .error e => .error e
            | .ok v => (expandScan g .dollar (chunk ++ rest)).map (fun t => v ++ t)
          else
            match tokValue g ds with
            | .error e => .error e
            | .ok v => (expandScan g .normal (chunk ++ rest)).map (fun t => v ++ c :: t)) =
        match tokValue g ds with
        | .error e => .error e
        | .ok v => (expandScan g .normal rest).map (fun t => v ++ c :: chunk ++ t)
      rw [if_neg (show ¬ c.isDigit = true from by rw [hd]; exact Bool.false_ne_true),
        if_neg hc]
      rw [expandScan_chunk g chunk .normal rest (Or.inl rfl) (hasTok_tail hchunk) hrest]
      cases htv : tokValue g ds with
      | error e => rfl
      | ok v =>
        show (Except.map (fun t => v ++ c :: t)
            (Except.map (fun t => stRender ScanState.normal ++ chunk ++ t)
              (expandScan g ScanState.normal rest))) =
          Except.map (fun t => v ++ c :: chunk ++ t) (expandScan g ScanState.normal rest)
        rw [exmap_map]
        cases expandScan g .normal rest <;> simp [Except.map, stRender]

theorem renderItems_head (rest : List (Str × Str)) :
    renderItems rest = [] ∨ ∃ r, renderItems rest = '$' :: r := by
  cases rest with
  | nil => exact Or.inl rfl
  | cons it tl =>
    obtain ⟨ds, chunk⟩ := it
    exact Or.inr ⟨'!' :: (ds ++ chunk ++ renderItems tl), rfl⟩

theorem expandScan_items (g : Nat → Except ReplaceErr (Option Str)) :
    ∀ items : List (Str × Str), wfItems items = true →
      items.all (fun it => exIsOk (g (digitsToNat it.1))) = true →
      expandScan g .normal (renderItems items) = .ok (expandedItemsG g items) := by
  intro items
  induction items with
  | nil => intro _ _; rfl
  | cons it rest ih =>
    obtain ⟨ds, chunk⟩ := it
    intro hwf hgr
    unfold wfItems at hwf
    simp only [List.all_cons, Bool.and_eq_true] at hwf hgr
    obtain ⟨⟨⟨⟨hne, hdig⟩, hchunk⟩, hhead⟩, hwfrest⟩ := hwf
    obtain ⟨hok, hgrrest⟩ := hgr
    cases ds with
    | nil => simp [List.isEmpty] at hne
    | cons d ds =>
      simp only [List.all_cons, Bool.and_eq_true] at hdig
      have hrender := renderItems_head rest
      show (if d.isDigit then expandScan g (.tok [d]) (ds ++ chunk ++ renderItems rest)
          else if d = '$' then
            (expandScan g .dollar (ds ++ chunk ++ renderItems rest)).map
              (fun t => '$' :: '!' :: t)
          else (expandScan g .normal (ds ++ chunk ++ renderItems rest)).map
            (fun t => '$' :: '!' :: d :: t)) =
        .ok (expandedItemsG g ((d :: ds, chunk) :: rest))
      rw [if_pos hdig.1, List.append_assoc,
        expandScan_tok_digits g ds [d] (chunk ++ renderItems rest) hdig.2]
      rw [show ([d] : Str) ++ ds = d :: ds from rfl]
      rw [expandScan_tok_exit g (d :: ds) chunk (renderItems rest)
        (by simpa using hchunk) hhead hrender]
      rw [tokValue_of_ok hok]
      show (expandScan g .normal (renderItems rest)).map
          (fun t => tokenExpansionG g (d :: ds) ++ chunk ++ t) =
        .ok (expandedItemsG g ((d :: ds, chunk) :: rest))
      rw [ih hwfrest hgrrest]
      rfl

/-- C3: for every match and every replacement template (presented as its
token decomposition), each backreference token `$!N` whose group exists in
the pattern is replaced by the text of capture group `N` of the current
match when that group participated, and is left in the output as the
literal token `$!N` when the group did not participate; the literal chunks
between tokens are copied unchanged. -/
theorem backreference_expansion (m : RMatch) (lead : Str)
    (items : List (Str × Str)) (hwf : wfTmpl lead items = true)
    (hgroups : items.all (fun it => exIsOk (matchGroup m (digitsToNat it.1))) = true) :
    expandBackrefs (renderTmpl lead items) m =
      .ok (lead ++ expandedItemsG (matchGroup m) items) := by
  unfold wfTmpl at hwf
  simp only [Bool.and_eq_true, Bool.not_eq_true'] at hwf
  obtain ⟨hlead, hitems⟩ := hwf
  unfold expandBackrefs expandAux renderTmpl
  rw [expandScan_chunk (matchGroup m) lead .normal (renderItems items) (Or.inl rfl)
    (show hasTok (stRender ScanState.normal ++ lead) = false from hlead)
    (renderItems_head items)]
  rw [expandScan_items (matchGroup m) items hitems hgroups]
  show Except.ok (stRender ScanState.normal ++ lead ++ expandedItemsG (matchGroup m) items) =
    Except.ok (lead ++ expandedItemsG (matchGroup m) items)
  rfl

/-- Witness for C3: match `"ab"` with group 1 = `"G"` participating and
group 2 not participating; the template `"x-$!1-$!2"` expands to
`"x-G-$!2"`: the first token is replaced by the group text, the second is
kept literally. -/
theorem backreference_expansion_witness :
    expandBackrefs (renderTmpl "x-".data [("1".data, "-".data), ("2".data, [])])
        ⟨"ab".data, [some "G".data, none]⟩ =
      .ok ("x-".data ++ expandedItemsG
        (matchGroup ⟨"ab".data, [some "G".data, none]⟩)
        [("1".data, "-".data), ("2".data, [])]) ∧
    renderTmpl "x-".data [("1".data, "-".data), ("2".data, [])] = "x-$!1-$!2".data ∧
    "x-".data ++ expandedItemsG (matchGroup ⟨"ab".data, [some "G".data, none]⟩)
        [("1".data, "-".data), ("2".data, [])] = "x-G-$!2".data := by
  refine ⟨?_, by decide, by decide⟩
  exact backreference_expansion ⟨"ab".data, [some "G".data, none]⟩ "x-".data
    [("1".data, "-".data), ("2".data, [])] (by decide) (by decide)
